import Mathlib

/-!
Shallow embedding of `src/word_frequency.py` (the concurrent word-frequency
counter).  Text is modelled as `List Char`; a Python `dict`/`defaultdict`
(insertion-ordered, unique keys) is modelled as an association list
`List (List Char × Nat)` where an increment updates the first entry with the
matching key in place and a fresh key is appended at the end.  The thread
pool of `map_reduce` is modelled by folding the workers' merges sequentially
over the list of segments; merge-order questions are settled by quantifying
over permutations of the workers' local tables.  The stop-word set (the
external NLTK `STOP_WORDS` default of `map_worker`) is an explicit parameter.
Python exceptions are modelled with `Except`.
-/

namespace WordFreq

/-- A word is a list of characters. -/
abbrev Word := List Char

/-- A frequency table: insertion-ordered association list with unique keys,
modelling a Python `dict`/`defaultdict(int)`. -/
abbrev Table := List (Word × Nat)

/-- Word characters of the regex `\w` (ASCII fragment): letters, digits,
underscore. -/
def isWordChar (c : Char) : Bool := c.isAlphanum || c == '_'

/-- Scanner for `re.findall(r"\b\w+\b", s)`: `cur` holds the reversed run of
word characters currently in progress; a non-word character (or the end of
the text) closes the run. -/
def findWordsAux (cur : Word) : List Char → List Word
  | [] => if cur = [] then [] else [cur.reverse]
  | c :: cs =>
    if isWordChar c then findWordsAux (c :: cur) cs
    else if cur = [] then findWordsAux [] cs
    else cur.reverse :: findWordsAux [] cs

/-- `re.findall(r"\b\w+\b", s)`: the maximal runs of word characters of `s`,
left to right. -/
def findWords (s : List Char) : List Word := findWordsAux [] s

/-- The tokenization done by `map_worker`:
`words = re.findall(r"\b\w+\b", text_segment.lower())` followed by
`words = [word for word in words if word not in stop_words]`. -/
def tokenize (stop : List Word) (fragment : List Char) : List Word :=
  (findWords (fragment.map Char.toLower)).filter (fun w => decide (w ∉ stop))

/-- `table[w] += n` on a `defaultdict(int)`: update the first entry with key
`w` in place, or append `(w, n)` if the key is absent. -/
def addCount (t : Table) (w : Word) (n : Nat) : Table :=
  match t with
  | [] => [(w, n)]
  | (k, v) :: rest => if k = w then (k, v + n) :: rest else (k, v) :: addCount rest w n

/-- `collections.Counter(ws)`: count occurrences, keys in first-occurrence
order. -/
def counter (ws : List Word) : Table :=
  ws.foldl (fun t w => addCount t w 1) []

/-- The merge loop of `map_worker` run under the lock:
`for word, count in local_counter.items(): partial[word] += count`. -/
def mergeTable (acc t : Table) : Table :=
  t.foldl (fun a p => addCount a p.1 p.2) acc

/-- `map_worker(text_segment, acc, lock, stop_words)`: tokenize the segment,
build the local counter, merge it into the shared accumulator. -/
def map_worker (stop : List Word) (text_segment : List Char) (acc : Table) : Table :=
  mergeTable acc (counter (tokenize stop text_segment))

/-- Segment `i` of the segmentation computed in `map_reduce`:
`text[i*segment_length:(i+1)*segment_length]` for `i != num_threads - 1`
and `text[i*segment_length:]` for the last index. -/
def segmentAt (text : List Char) (nn i : Nat) : List Char :=
  let segLen := text.length / nn
  if i ≠ nn - 1 then (text.drop (i * segLen)).take segLen
  else text.drop (i * segLen)

/-- The list `segments` built in `map_reduce` (`for i in range(num_threads)`). -/
def pySegments (text : List Char) (nn : Nat) : List (List Char) :=
  (List.range nn).map (segmentAt text nn)

/-- Python exceptions raised by `map_reduce`. -/
inductive PyError where
  | zeroDivisionError
deriving DecidableEq

/-- `map_reduce(text, num_threads)`: `text_length // num_threads` raises
`ZeroDivisionError` when `num_threads == 0`; otherwise the segments are
computed (`range(num_threads)` is empty when `num_threads < 0`, hence
`Int.toNat`), every worker's merge is folded into the accumulator, and the
accumulated table is returned. -/
def map_reduce (stop : List Word) (text : List Char) (num_threads : Int) :
    Except PyError Table :=
  if num_threads = 0 then .error .zeroDivisionError
  else .ok ((pySegments text num_threads.toNat).foldl
    (fun acc seg => map_worker stop seg acc) [])

/-- Count recorded for `w` in table `t` (`t[w]`, defaulting to `0`). -/
def lookupCount (t : Table) (w : Word) : Nat :=
  match t with
  | [] => 0
  | p :: rest => if p.1 = w then p.2 else lookupCount rest w

/-- Sum of the values of all entries of `t` whose key is `w` (coincides with
`lookupCount` on tables with unique keys). -/
def entrySum (t : Table) (w : Word) : Nat :=
  (t.map (fun p => if p.1 = w then p.2 else 0)).sum

/-- Stable insertion (descending by count) of an entry into a ranked list:
the entry goes after every entry of at least its count. -/
def insertDesc (p : Word × Nat) : List (Word × Nat) → List (Word × Nat)
  | [] => [p]
  | q :: rest => if p.2 ≤ q.2 then q :: insertDesc p rest else p :: q :: rest

/-- Stable sort of a table's entries by count descending, modelling the
ordering used by `heapq.nlargest` / `Counter.most_common` (equal counts keep
the table's insertion order). -/
def sortByCountDesc (t : Table) : List (Word × Nat) :=
  t.foldl (fun acc p => insertDesc p acc) []

/-- `collections.Counter(word_counts).most_common(top_n)` as used by
`visualize_top_words`. -/
def most_common (t : Table) (top_n : Nat) : List (Word × Nat) :=
  (sortByCountDesc t).take top_n

/-- The local tables produced by the workers: the counter of the filtered
tokens of each segment, in segment order. -/
def localTables (stop : List Word) (text : List Char) (num_threads : Int) : List Table :=
  (pySegments text num_threads.toNat).map (fun seg => counter (tokenize stop seg))

/-- Merging a list of local tables into an initially empty accumulator, one
worker at a time. -/
def mergeAll (ls : List Table) : Table :=
  ls.foldl mergeTable []

/-! ### Lemmas about `addCount`, `counter` and `mergeTable` -/

theorem lookupCount_addCount (t : Table) (w v : Word) (n : Nat) :
    lookupCount (addCount t w n) v =
      if w = v then lookupCount t v + n else lookupCount t v := by
  induction t with
  | nil =>
    simp only [addCount, lookupCount]
    split <;> simp_all [lookupCount]
  | cons p rest ih =>
    obtain ⟨k, c⟩ := p
    simp only [addCount]
    split
    · subst k
      simp only [lookupCount]
      split <;> simp_all
    · simp only [lookupCount, ih]
      split <;> split <;> simp_all

theorem entrySum_cons (p : Word × Nat) (t : Table) (v : Word) :
    entrySum (p :: t) v = (if p.1 = v then p.2 else 0) + entrySum t v := by
  simp [entrySum]

theorem entrySum_addCount (t : Table) (w v : Word) (n : Nat) :
    entrySum (addCount t w n) v = entrySum t v + if w = v then n else 0 := by
  induction t with
  | nil =>
    simp only [addCount, entrySum, List.map_cons, List.map_nil, List.sum_cons,
      List.sum_nil]
    split <;> simp
  | cons p rest ih =>
    obtain ⟨k, c⟩ := p
    simp only [addCount]
    split
    · subst k
      simp only [entrySum_cons]
      split_ifs <;> omega
    · simp only [entrySum_cons, ih]
      omega

theorem lookupCount_mergeTable (t acc : Table) (w : Word) :
    lookupCount (mergeTable acc t) w = lookupCount acc w + entrySum t w := by
  induction t generalizing acc with
  | nil => simp [mergeTable, entrySum]
  | cons p rest ih =>
    simp only [mergeTable, List.foldl_cons] at *
    rw [ih, lookupCount_addCount, entrySum_cons]
    split_ifs <;> omega

theorem entrySum_counter_aux (ws : List Word) (t : Table) (v : Word) :
    entrySum (ws.foldl (fun t w => addCount t w 1) t) v =
      entrySum t v + ws.count v := by
  induction ws generalizing t with
  | nil => simp
  | cons w rest ih =>
    simp only [List.foldl_cons, ih, entrySum_addCount, List.count_cons, beq_iff_eq]
    split_ifs <;> omega

theorem entrySum_counter (ws : List Word) (v : Word) :
    entrySum (counter ws) v = ws.count v := by
  simpa [counter, entrySum] using entrySum_counter_aux ws [] v

theorem lookupCount_map_worker (stop : List Word) (seg : List Char)
    (acc : Table) (w : Word) :
    lookupCount (map_worker stop seg acc) w =
      lookupCount acc w + (tokenize stop seg).count w := by
  rw [map_worker, lookupCount_mergeTable, entrySum_counter]

theorem lookupCount_mergeAll_aux (ls : List Table) (acc : Table) (w : Word) :
    lookupCount (ls.foldl mergeTable acc) w =
      lookupCount acc w + (ls.map (fun t => entrySum t w)).sum := by
  induction ls generalizing acc with
  | nil => simp
  | cons t rest ih =>
    simp only [List.foldl_cons, List.map_cons, List.sum_cons, ih,
      lookupCount_mergeTable]
    omega

theorem lookupCount_mergeAll (ls : List Table) (w : Word) :
    lookupCount (mergeAll ls) w = (ls.map (fun t => entrySum t w)).sum := by
  simpa [mergeAll, lookupCount] using lookupCount_mergeAll_aux ls [] w

/-! ### Membership and positivity lemmas -/

theorem mem_addCount (t : Table) (w : Word) (n : Nat) (p : Word × Nat)
    (hp : p ∈ addCount t w n) : p.1 = w ∨ p ∈ t := by
  induction t with
  | nil => simp only [addCount, List.mem_singleton] at hp; simp [hp]
  | cons q rest ih =>
    obtain ⟨k, c⟩ := q
    simp only [addCount] at hp
    split at hp
    · rcases List.mem_cons.mp hp with h | h
      · subst h; left; simpa using ‹k = w›
      · right; exact List.mem_cons_of_mem _ h
    · rcases List.mem_cons.mp hp with h | h
      · right; simp [h]
      · rcases ih h with h' | h'
        · exact Or.inl h'
        · exact Or.inr (List.mem_cons_of_mem _ h')

theorem mem_counter_aux (ws : List Word) (t : Table) (p : Word × Nat)
    (hp : p ∈ ws.foldl (fun t w => addCount t w 1) t) : p ∈ t ∨ p.1 ∈ ws := by
  induction ws generalizing t with
  | nil => simp_all
  | cons w rest ih =>
    simp only [List.foldl_cons] at hp
    rcases ih _ hp with h | h
    · rcases mem_addCount _ _ _ _ h with h' | h'
      · simp [h']
      · exact Or.inl h'
    · simp [h]

theorem mem_counter (ws : List Word) (p : Word × Nat) (hp : p ∈ counter ws) :
    p.1 ∈ ws := by
  rcases mem_counter_aux ws [] p hp with h | h
  · simp at h
  · exact h

theorem mem_mergeTable (t acc : Table) (p : Word × Nat)
    (hp : p ∈ mergeTable acc t) : p ∈ acc ∨ ∃ q ∈ t, p.1 = q.1 := by
  induction t generalizing acc with
  | nil => simp_all [mergeTable]
  | cons q rest ih =>
    simp only [mergeTable, List.foldl_cons] at hp
    rcases ih _ hp with h | h
    · rcases mem_addCount _ _ _ _ h with h' | h'
      · exact Or.inr ⟨q, List.mem_cons_self _ _, h'⟩
      · exact Or.inl h'
    · obtain ⟨r, hr, hr'⟩ := h
      exact Or.inr ⟨r, List.mem_cons_of_mem _ hr, hr'⟩

theorem tokenize_not_stop (stop : List Word) (s : List Char) (x : Word)
    (hx : x ∈ tokenize stop s) : x ∉ stop := by
  simp only [tokenize, List.mem_filter, decide_eq_true_eq] at hx
  exact hx.2

theorem pos_addCount (t : Table) (w : Word) (n : Nat)
    (ht : ∀ p ∈ t, 0 < p.2) (hn : 0 < n) : ∀ p ∈ addCount t w n, 0 < p.2 := by
  induction t with
  | nil => simpa [addCount] using hn
  | cons q rest ih =>
    obtain ⟨k, c⟩ := q
    intro p hp
    simp only [addCount] at hp
    split at hp
    · rcases List.mem_cons.mp hp with h | h
      · subst h; have := ht (k, c) (List.mem_cons_self _ _); simp at this ⊢; omega
      · exact ht p (List.mem_cons_of_mem _ h)
    · rcases List.mem_cons.mp hp with h | h
      · subst h; exact ht (k, c) (List.mem_cons_self _ _)
      · exact ih (fun q hq => ht q (List.mem_cons_of_mem _ hq)) p h

theorem pos_counter_aux (ws : List Word) (t : Table)
    (ht : ∀ p ∈ t, 0 < p.2) :
    ∀ p ∈ ws.foldl (fun t w => addCount t w 1) t, 0 < p.2 := by
  induction ws generalizing t with
  | nil => simpa using ht
  | cons w rest ih =>
    simp only [List.foldl_cons]
    exact ih _ (pos_addCount t w 1 ht (by omega))

theorem pos_counter (ws : List Word) : ∀ p ∈ counter ws, 0 < p.2 :=
  pos_counter_aux ws [] (by simp)

theorem pos_mergeTable (t acc : Table)
    (hacc : ∀ p ∈ acc, 0 < p.2) (ht : ∀ q ∈ t, 0 < q.2) :
    ∀ p ∈ mergeTable acc t, 0 < p.2 := by
  induction t generalizing acc with
  | nil => simpa [mergeTable] using hacc
  | cons q rest ih =>
    simp only [mergeTable, List.foldl_cons] at *
    exact ih _
      (pos_addCount acc q.1 q.2 hacc (ht q (List.mem_cons_self _ _)))
      (fun r hr => ht r (List.mem_cons_of_mem _ hr))

theorem lookupCount_eq_zero (t : Table) (w : Word)
    (h : ∀ p ∈ t, p.1 ≠ w) : lookupCount t w = 0 := by
  induction t with
  | nil => rfl
  | cons p rest ih =>
    simp only [lookupCount]
    rw [if_neg (h p (List.mem_cons_self _ _))]
    exact ih (fun q hq => h q (List.mem_cons_of_mem _ hq))

/-! ### Segmentation lemmas -/

theorem flatten_take_slices (m b : Nat) (text : List Char) :
    ((List.range m).map (fun i => (text.drop (i * b)).take b)).flatten
      = text.take (m * b) := by
  induction m with
  | zero => simp
  | succ k ih =>
    rw [List.range_succ, List.map_append, List.flatten_append]
    simp only [List.map_cons, List.map_nil, List.flatten_cons, List.flatten_nil,
      List.append_nil, ih]
    rw [Nat.succ_mul, List.take_add]

theorem pySegments_flatten (text : List Char) (n : Nat) (h : 0 < n) :
    (pySegments text n).flatten = text := by
  obtain ⟨m, rfl⟩ : ∃ m, n = m + 1 := ⟨n - 1, by omega⟩
  rw [pySegments, List.range_succ, List.map_append, List.flatten_append]
  have hmap : (List.range m).map (segmentAt text (m + 1)) =
      (List.range m).map
        (fun i => (text.drop (i * (text.length / (m + 1)))).take (text.length / (m + 1))) := by
    refine List.map_congr_left (fun i hi => ?_)
    have : i < m := List.mem_range.mp hi
    simp only [segmentAt]
    rw [if_pos (by omega)]
  rw [hmap, flatten_take_slices]
  simp only [List.map_cons, List.map_nil, List.flatten_cons, List.flatten_nil,
    List.append_nil, segmentAt]
  rw [if_neg (by omega)]
  exact List.take_append_drop _ _

theorem pySegments_length (text : List Char) (n : Nat) :
    (pySegments text n).length = n := by
  simp [pySegments]

theorem pySegments_lengths_sum (text : List Char) (n : Nat) (h : 0 < n) :
    ((pySegments text n).map List.length).sum = text.length := by
  rw [← List.length_flatten, pySegments_flatten text n h]

/-! ### Ranking lemmas -/

theorem mem_insertDesc (p : Word × Nat) (l : List (Word × Nat)) (x : Word × Nat)
    (hx : x ∈ insertDesc p l) : x = p ∨ x ∈ l := by
  induction l with
  | nil => simpa [insertDesc] using hx
  | cons q rest ih =>
    simp only [insertDesc] at hx
    split at hx
    · rcases List.mem_cons.mp hx with h | h
      · simp [h]
      · rcases ih h with h' | h'
        · exact Or.inl h'
        · simp [h']
    · rcases List.mem_cons.mp hx with h | h
      · exact Or.inl h
      · exact Or.inr h

theorem pairwise_insertDesc (p : Word × Nat) (l : List (Word × Nat))
    (hl : l.Pairwise (fun p q => q.2 ≤ p.2)) :
    (insertDesc p l).Pairwise (fun p q => q.2 ≤ p.2) := by
  induction l with
  | nil => simp [insertDesc]
  | cons q rest ih =>
    rcases List.pairwise_cons.mp hl with ⟨hq, hrest⟩
    simp only [insertDesc]
    split
    · refine List.pairwise_cons.mpr ⟨fun x hx => ?_, ih hrest⟩
      rcases mem_insertDesc p rest x hx with h | h
      · subst h; assumption
      · exact hq x h
    · refine List.pairwise_cons.mpr ⟨fun x hx => ?_, hl⟩
      rcases List.mem_cons.mp hx with h | h
      · subst h; omega
      · have := hq x h; omega

theorem pairwise_sort_aux (l acc : List (Word × Nat))
    (hacc : acc.Pairwise (fun p q => q.2 ≤ p.2)) :
    (l.foldl (fun a p => insertDesc p a) acc).Pairwise (fun p q => q.2 ≤ p.2) := by
  induction l generalizing acc with
  | nil => simpa using hacc
  | cons p rest ih =>
    simp only [List.foldl_cons]
    exact ih _ (pairwise_insertDesc p acc hacc)

theorem pairwise_sortByCountDesc (t : Table) :
    (sortByCountDesc t).Pairwise (fun p q => q.2 ≤ p.2) :=
  pairwise_sort_aux t [] (by simp)

theorem filter_insertDesc (c : Nat) (p : Word × Nat) (l : List (Word × Nat))
    (hl : l.Pairwise (fun p q => q.2 ≤ p.2)) :
    (insertDesc p l).filter (fun q => q.2 == c) =
      if p.2 = c then l.filter (fun q => q.2 == c) ++ [p]
      else l.filter (fun q => q.2 == c) := by
  induction l with
  | nil =>
    simp only [insertDesc, List.filter_nil]
    by_cases h : p.2 = c <;> simp [h]
  | cons q rest ih =>
    rcases List.pairwise_cons.mp hl with ⟨hq, hrest⟩
    simp only [insertDesc]
    split
    · simp only [List.filter_cons, ih hrest]
      by_cases hpc : p.2 = c <;> by_cases hqc : (q.2 == c) <;>
        simp_all
    · have hlt : q.2 < p.2 := by omega
      simp only [List.filter_cons]
      by_cases hpc : p.2 = c
      · have hq0 : ¬ (q.2 == c) := by simp; omega
        have hrest0 : rest.filter (fun q => q.2 == c) = [] := by
          rw [List.filter_eq_nil_iff]
          intro x hx
          have := hq x hx
          simp; omega
        simp [hpc, hq0, hrest0]
      · simp [hpc]

theorem filter_sort_aux (c : Nat) (l acc : List (Word × Nat))
    (hacc : acc.Pairwise (fun p q => q.2 ≤ p.2)) :
    (l.foldl (fun a p => insertDesc p a) acc).filter (fun q => q.2 == c) =
      acc.filter (fun q => q.2 == c) ++ l.filter (fun q => q.2 == c) := by
  induction l generalizing acc with
  | nil => simp
  | cons p rest ih =>
    simp only [List.foldl_cons]
    rw [ih _ (pairwise_insertDesc p acc hacc), filter_insertDesc c p acc hacc,
      List.filter_cons]
    by_cases hpc : p.2 = c <;> simp [hpc]

theorem filter_sortByCountDesc (c : Nat) (t : Table) :
    (sortByCountDesc t).filter (fun q => q.2 == c) =
      t.filter (fun q => q.2 == c) := by
  simpa using filter_sort_aux c t [] (by simp)

/-! ### Growth lemmas for the merge step -/

theorem grow_addCount (t : Table) (w : Word) (n : Nat) (p : Word × Nat)
    (hp : p ∈ t) : ∃ q ∈ addCount t w n, q.1 = p.1 ∧ p.2 ≤ q.2 := by
  induction t with
  | nil => simp at hp
  | cons r rest ih =>
    obtain ⟨k, c⟩ := r
    simp only [addCount]
    split
    · rcases List.mem_cons.mp hp with h | h
      · subst h; exact ⟨(k, c + n), List.mem_cons_self _ _, rfl, by omega⟩
      · exact ⟨p, List.mem_cons_of_mem _ h, rfl, le_refl _⟩
    · rcases List.mem_cons.mp hp with h | h
      · subst h; exact ⟨(k, c), List.mem_cons_self _ _, rfl, le_refl _⟩
      · obtain ⟨q, hq, hq1, hq2⟩ := ih h
        exact ⟨q, List.mem_cons_of_mem _ hq, hq1, hq2⟩

theorem grow_mergeTable (t acc : Table) (p : Word × Nat) (hp : p ∈ acc) :
    ∃ q ∈ mergeTable acc t, q.1 = p.1 ∧ p.2 ≤ q.2 := by
  induction t generalizing acc p with
  | nil => exact ⟨p, hp, rfl, le_refl _⟩
  | cons r rest ih =>
    simp only [mergeTable, List.foldl_cons] at *
    obtain ⟨q, hq, hq1, hq2⟩ := grow_addCount acc r.1 r.2 p hp
    obtain ⟨q', hq', hq1', hq2'⟩ := ih _ q hq
    exact ⟨q', hq', by rw [hq1', hq1], by omega⟩

/-- Every key of the accumulated table comes from a token that survived the
stop-word filter, so it is not a stop word. -/
theorem keys_foldl_worker (stop : List Word) (segs : List (List Char))
    (acc : Table) (hacc : ∀ p ∈ acc, p.1 ∉ stop) :
    ∀ p ∈ segs.foldl (fun a s => map_worker stop s a) acc, p.1 ∉ stop := by
  induction segs generalizing acc with
  | nil => simpa using hacc
  | cons s rest ih =>
    simp only [List.foldl_cons]
    refine ih _ (fun p hp => ?_)
    rcases mem_mergeTable _ acc p hp with h | h
    · exact hacc p h
    · obtain ⟨q, hq, hq'⟩ := h
      rw [hq']
      exact tokenize_not_stop stop s q.1 (mem_counter _ _ hq)

/-! ### Claims -/

/-- C1 (code bug): the frequency table is NOT independent of the worker
count.  On text `ab` with no stop words, one worker returns the table
mapping `ab` to 1, while two workers — whose segment cut at character
offset 1 falls inside the word — return the table mapping `a` to 1 and `b`
to 1.  This evaluates `map_reduce` at the failing input. -/
theorem c1_thread_count_dependence :
    map_reduce [] "ab".toList 1 = .ok [("ab".toList, 1)] ∧
    map_reduce [] "ab".toList 2 = .ok [("a".toList, 1), ("b".toList, 1)] ∧
    map_reduce [] "ab".toList 1 ≠ map_reduce [] "ab".toList 2 := by
  refine ⟨rfl, rfl, fun h => ?_⟩
  rw [(rfl : map_reduce [] "ab".toList 1 = .ok [("ab".toList, 1)]),
    (rfl : map_reduce [] "ab".toList 2 = .ok [("a".toList, 1), ("b".toList, 1)])] at h
  injection h with h
  exact absurd h (by decide)

/-- C2 counterexample: with worker count -1 (which is ≤ 0) the pipeline does
not fail with any error: it returns a frequency table, namely the empty
one. -/
theorem c2_counterexample :
    map_reduce [] "a".toList (-1) = .ok ([] : Table) := rfl

/-- C2 amended: no `ConfigError` exists.  For worker count 0 `map_reduce`
fails with `ZeroDivisionError` (raised by `text_length // num_threads`)
before any work starts; for negative worker counts it does not fail at all
but returns the empty frequency table (`range(num_threads)` is empty). -/
theorem c2_amended (stop : List Word) (text : List Char) (n : Int) :
    (n = 0 → map_reduce stop text n = .error .zeroDivisionError) ∧
    (n < 0 → map_reduce stop text n = .ok ([] : Table)) := by
  constructor
  · intro h; subst h; rfl
  · intro h
    unfold map_reduce
    rw [if_neg (by omega)]
    have h0 : n.toNat = 0 := by omega
    rw [h0]
    rfl

/-- C2 witness: the amended claim evaluated at worker counts 0 and -1. -/
theorem c2_amended_witness :
    map_reduce [] "a".toList 0 = .error .zeroDivisionError ∧
    map_reduce [] "a".toList (-1) = .ok ([] : Table) :=
  ⟨(c2_amended [] "a".toList 0).1 rfl, (c2_amended [] "a".toList (-1)).2 (by omega)⟩

/-- C4: for every text and positive worker count `n`, the segmentation has
exactly `n` segments; with `base = length / n`, segment `i` for `i < n - 1`
is the slice of length `base` starting at offset `i * base`, and the last
segment is everything from offset `(n-1) * base`; the segments concatenate
back to the text (contiguous, non-overlapping, jointly exhaustive), their
lengths sum to the text length, and for the empty text all segments are
empty. -/
theorem c4_segmenter (text : List Char) (n : Nat) (h : 0 < n) :
    (pySegments text n).length = n ∧
    (∀ i, i < n - 1 →
      (pySegments text n)[i]? =
        some ((text.drop (i * (text.length / n))).take (text.length / n))) ∧
    (pySegments text n)[n - 1]? =
      some (text.drop ((n - 1) * (text.length / n))) ∧
    (pySegments text n).flatten = text ∧
    ((pySegments text n).map List.length).sum = text.length ∧
    (text = [] → ∀ s ∈ pySegments text n, s = []) := by
  refine ⟨pySegments_length text n, ?_, ?_, pySegments_flatten text n h,
    pySegments_lengths_sum text n h, ?_⟩
  · intro i hi
    have hget : (pySegments text n)[i]? = some (segmentAt text n i) := by
      simp [pySegments, List.getElem?_range (show i < n by omega)]
    rw [hget]
    simp only [segmentAt]
    rw [if_pos (show i ≠ n - 1 by omega)]
  · have hget : (pySegments text n)[n - 1]? = some (segmentAt text n (n - 1)) := by
      simp [pySegments, List.getElem?_range (show n - 1 < n by omega)]
    rw [hget]
    simp only [segmentAt]
    rw [if_neg (by omega)]
  · intro htext s hs
    subst htext
    have hflat := pySegments_flatten ([] : List Char) n h
    rw [List.flatten_eq_nil_iff] at hflat
    exact hflat s hs

/-- C4 witness: the segmenter facts evaluated on the five-character text
`abcde` with two workers. -/
theorem c4_segmenter_witness :
    (pySegments "abcde".toList 2).length = 2 ∧
    (pySegments "abcde".toList 2)[0]? =
      some ((("abcde".toList).drop (0 * ("abcde".toList.length / 2))).take
        ("abcde".toList.length / 2)) ∧
    (pySegments "abcde".toList 2)[2 - 1]? =
      some (("abcde".toList).drop ((2 - 1) * ("abcde".toList.length / 2))) ∧
    (pySegments "abcde".toList 2).flatten = "abcde".toList :=
  ⟨(c4_segmenter "abcde".toList 2 (by omega)).1,
   (c4_segmenter "abcde".toList 2 (by omega)).2.1 0 (by omega),
   (c4_segmenter "abcde".toList 2 (by omega)).2.2.1,
   (c4_segmenter "abcde".toList 2 (by omega)).2.2.2.1⟩

/-- C5 counterexample: two tables that are permutations of each other (the
same word-to-count mapping, differing only in the incidental entry order)
rank differently, so ties are NOT ordered by a deterministic secondary key
of the entries; the tie-break is the table's incidental iteration order. -/
theorem c5_counterexample :
    ([(['a'], 1), (['b'], 1)] : Table).Perm [(['b'], 1), (['a'], 1)] ∧
    most_common [(['a'], 1), (['b'], 1)] 1 ≠ most_common [(['b'], 1), (['a'], 1)] 1 := by
  exact ⟨by decide, by decide⟩

/-- C5 amended: `most_common` returns at most `top_n` entries, `top_n = 0`
yields the empty sequence, the result is sorted by count descending, and
entries with equal counts keep the order in which they appear in the table
(a stable sort on the incidental iteration order) rather than an explicit
deterministic secondary key. -/
theorem c5_ranker (t : Table) (top_n : Nat) :
    (most_common t top_n).length ≤ top_n ∧
    most_common t 0 = [] ∧
    (most_common t top_n).Pairwise (fun p q => q.2 ≤ p.2) ∧
    (∀ c, (sortByCountDesc t).filter (fun q => q.2 == c) =
      t.filter (fun q => q.2 == c)) := by
  refine ⟨?_, rfl, ?_, fun c => filter_sortByCountDesc c t⟩
  · exact List.length_take_le top_n (sortByCountDesc t)
  · exact (pairwise_sortByCountDesc t).sublist (List.take_sublist _ _)

/-- C6: the final counts are independent of the order in which the workers'
local tables are merged into the accumulator (the pipeline's table is the
in-order merge, and any permutation of the local tables merges to a table
with identical counts for every word); the pipeline itself is a pure
function, hence deterministic across re-runs. -/
theorem c6_merge_order_independence (stop : List Word) (text : List Char)
    (n : Int) (ls : List Table) (w : Word) (hn : n ≠ 0)
    (hperm : ls.Perm (localTables stop text n)) :
    map_reduce stop text n = .ok (mergeAll (localTables stop text n)) ∧
    lookupCount (mergeAll ls) w =
      lookupCount (mergeAll (localTables stop text n)) w := by
  constructor
  · unfold map_reduce
    rw [if_neg hn]
    congr 1
    rw [localTables, mergeAll, List.foldl_map]
    rfl
  · rw [lookupCount_mergeAll, lookupCount_mergeAll]
    exact (hperm.map (fun t => entrySum t w)).sum_eq

/-- C6 witness: on `ab cd` with two workers, merging the two local tables in
reverse order leaves the count of `cd` unchanged. -/
theorem c6_merge_order_independence_witness :
    map_reduce [] "ab cd".toList 2 = .ok (mergeAll (localTables [] "ab cd".toList 2)) ∧
    lookupCount (mergeAll [[("cd".toList, 1)], [("ab".toList, 1)]]) "cd".toList =
      lookupCount (mergeAll (localTables [] "ab cd".toList 2)) "cd".toList :=
  c6_merge_order_independence [] "ab cd".toList 2
    [[("cd".toList, 1)], [("ab".toList, 1)]] "cd".toList (by decide) (by decide)

/-- C7: a word belonging to the stop-word set never appears as a key of the
table returned by the pipeline, and its recorded count is zero. -/
theorem c7_stopword_filter (stop : List Word) (text : List Char) (n : Int)
    (w : Word) (t : Table) (hw : w ∈ stop)
    (ht : map_reduce stop text n = .ok t) :
    lookupCount t w = 0 ∧ ∀ p ∈ t, p.1 ≠ w := by
  unfold map_reduce at ht
  split at ht
  · exact absurd ht (by simp)
  · injection ht with ht
    subst ht
    have hkeys := keys_foldl_worker stop (pySegments text n.toNat) [] (by simp)
    refine ⟨lookupCount_eq_zero _ _ (fun p hp => ?_), fun p hp => ?_⟩
    · intro hpw
      exact hkeys p hp (hpw ▸ hw)
    · intro hpw
      exact hkeys p hp (hpw ▸ hw)

/-- C7 witness: with stop word `the`, the table for `the cat` records no
count for `the`. -/
theorem c7_stopword_filter_witness :
    lookupCount [("cat".toList, 1)] "the".toList = 0 :=
  (c7_stopword_filter ["the".toList] "the cat".toList 1 "the".toList
    [("cat".toList, 1)] (by decide) rfl).1

/-- C8: on the text `The cat sat on the mat. The cat ran.` with stop words
`the` and `on`, the pipeline returns the table mapping cat to 2 and sat,
mat, ran to 1 each, both with one worker and with three workers. -/
theorem c8_example :
    map_reduce ["the".toList, "on".toList]
        "The cat sat on the mat. The cat ran.".toList 1
      = .ok [("cat".toList, 2), ("sat".toList, 1), ("mat".toList, 1), ("ran".toList, 1)] ∧
    map_reduce ["the".toList, "on".toList]
        "The cat sat on the mat. The cat ran.".toList 3
      = .ok [("cat".toList, 2), ("sat".toList, 1), ("mat".toList, 1), ("ran".toList, 1)] :=
  ⟨rfl, rfl⟩

/-- C9: with one worker the pipeline returns exactly the sequential
reference count: the single segment is the whole text, and the resulting
table maps every filtered token of the lowercased text to its number of
occurrences in the whole text, with no zero-count entries. -/
theorem c9_single_worker (stop : List Word) (text : List Char) :
    map_reduce stop text 1 = .ok (map_worker stop text []) ∧
    (∀ w, lookupCount (map_worker stop text []) w = (tokenize stop text).count w) ∧
    (∀ p ∈ map_worker stop text [], 0 < p.2) := by
  refine ⟨?_, fun w => ?_, ?_⟩
  · unfold map_reduce
    rw [if_neg (by omega)]
    congr 1
    have h1 : pySegments text (Int.toNat 1) = [text] := by
      show pySegments text 1 = [text]
      unfold pySegments
      rw [show List.range 1 = [0] from rfl]
      simp [segmentAt]
    rw [h1]
    rfl
  · rw [lookupCount_map_worker]
    simp [lookupCount]
  · exact pos_mergeTable (counter (tokenize stop text)) []
      (by simp) (pos_counter _)

/-- C9 witness: the sequential reference count evaluated on `a a b`. -/
theorem c9_single_worker_witness :
    map_reduce [] "a a b".toList 1 = .ok (map_worker [] "a a b".toList []) ∧
    lookupCount (map_worker [] "a a b".toList []) "a".toList =
      (tokenize [] "a a b".toList).count "a".toList ∧
    0 < (("a".toList, 2) : Word × Nat).2 :=
  ⟨(c9_single_worker [] "a a b".toList).1,
   (c9_single_worker [] "a a b".toList).2.1 "a".toList,
   (c9_single_worker [] "a a b".toList).2.2 ("a".toList, 2) (by decide)⟩

/-- C10: a worker's merge only adds to the accumulator: no count decreases,
a word that does not occur among the segment's filtered tokens keeps
exactly its previous count, and no entry is ever removed (every existing
key survives with a count at least as large). -/
theorem c10_worker_frame (stop : List Word) (seg : List Char) (acc : Table)
    (w : Word) (hw : w ∉ tokenize stop seg) :
    (∀ v, lookupCount acc v ≤ lookupCount (map_worker stop seg acc) v) ∧
    lookupCount (map_worker stop seg acc) w = lookupCount acc w ∧
    (∀ p ∈ acc, ∃ q ∈ map_worker stop seg acc, q.1 = p.1 ∧ p.2 ≤ q.2) := by
  refine ⟨fun v => ?_, ?_, fun p hp => ?_⟩
  · rw [lookupCount_map_worker]; omega
  · rw [lookupCount_map_worker, List.count_eq_zero.mpr hw]
    omega
  · exact grow_mergeTable (counter (tokenize stop seg)) acc p hp

/-- C10 witness: merging the worker for segment `a b` into an accumulator
holding `x` with count 5 does not change the count of `x`. -/
theorem c10_worker_frame_witness :
    lookupCount [("x".toList, 5)] "x".toList ≤
      lookupCount (map_worker [] "a b".toList [("x".toList, 5)]) "x".toList ∧
    lookupCount (map_worker [] "a b".toList [("x".toList, 5)]) "x".toList =
      lookupCount [("x".toList, 5)] "x".toList :=
  ⟨(c10_worker_frame [] "a b".toList [("x".toList, 5)] "x".toList (by decide)).1
    "x".toList,
   (c10_worker_frame [] "a b".toList [("x".toList, 5)] "x".toList (by decide)).2.1⟩

end WordFreq
